import Mathlib

/-!
Verification of the TinyGo transform-test harness (fuzzy IR comparison and
golden-fixture handling), the `os.ReadFile` implementation, and spec-modelled
whole-program lowering passes (interface lowering, dead-code elimination).

Strings are modelled as Lean `String` / `List Char`; Go byte slices as
`List Nat`.  Go's `llvm.Version` major number is a build-time constant and is
threaded through as an explicit `llvmVersion : Nat` parameter.
-/

set_option maxHeartbeats 1000000

namespace TinyGo

/-- Splitting a character list at every newline, exactly like Go's
`strings.Split(s, "\n")`: the result always has one more element than the
number of separators, so the empty input gives `[[]]`. -/
def splitLines : List Char → List (List Char)
  | [] => [[]]
  | c :: rest =>
    if c = '\n' then [] :: splitLines rest
    else
      match splitLines rest with
      | [] => [[c]]
      | l :: ls => (c :: l) :: ls

/-- Everything before the first semicolon, like `strings.Split(line, ";")[0]`. -/
def dropComment (l : List Char) : List Char :=
  l.takeWhile (fun c => c != ';')

/-- Characters removed by `strings.TrimRight(line, "\r ")`. -/
def isCutChar (c : Char) : Bool :=
  c == '\r' || c == ' '

/-- Remove trailing carriage returns and spaces, like
`strings.TrimRight(line, "\r ")`. -/
def trimRight (l : List Char) : List Char :=
  (l.reverse.dropWhile isCutChar).reverse

/-- Boolean list-prefix test (Go `strings.HasPrefix`). -/
def hasPfx : List Char → List Char → Bool
  | [], _ => true
  | _ :: _, [] => false
  | a :: as, b :: bs => a == b && hasPfx as bs

/-- The pattern `source_filename = ` checked with `strings.HasPrefix`. -/
def sourceFilenameTag : List Char := "source_filename = ".data

/-- The pattern `attributes ` checked with `strings.HasPrefix`. -/
def attributesTag : List Char := "attributes ".data

/-- The pattern `define ` checked with `strings.HasPrefix`. -/
def defineTag : List Char := "define ".data

/-- One replacement step of the regular expression ` %[0-9]+(\)|,)`: given the
characters after a ` %` occurrence, consume a nonempty run of digits followed
by `)` or `,`, returning the closing character and the rest.  Returns `none`
when the pattern does not match here.  (Taking the maximal digit run is
equivalent to the regex because the required closing character is not a
digit.) -/
def paramStep (rest : List Char) : Option (Char × List Char) :=
  match rest.takeWhile Char.isDigit, rest.dropWhile Char.isDigit with
  | _ :: _, close :: rest2 =>
    if close == ')' || close == ',' then some (close, rest2) else none
  | _, _ => none

/-- Go's `regexp.MustCompile(" %[0-9]+(\\)|,)").ReplaceAllString(line, "$1")`:
replace every (leftmost, non-overlapping) occurrence of a space, a percent
sign and a digit run followed by `)` or `,` with just the closing
character. -/
def replaceParams : List Char → List Char
  | ' ' :: '%' :: rest =>
    match h : paramStep rest with
    | some (close, rest2) => close :: replaceParams rest2
    | none => ' ' :: replaceParams ('%' :: rest)
  | c :: rest => c :: replaceParams rest
  | [] => []
termination_by l => l.length
decreasing_by
  · have h2 : rest2.length < rest.length := by
      unfold paramStep at h
      split at h
      · rename_i ds close2 r2 hds hdr
        split at h
        · cases h
          have h1 : (rest.dropWhile Char.isDigit).length ≤ rest.length :=
            (List.dropWhile_suffix Char.isDigit).sublist.length_le
          rw [hdr] at h1
          simp at h1
          omega
        · cases h
      · cases h
    simp
    omega
  · simp
  · simp

/-- The per-line filter of `filterIrrelevantIRLines`: strip the comment, trim
trailing `\r` and spaces, then drop empty lines, `source_filename = ` lines
and (below LLVM 10 only) `attributes ` lines, and (below LLVM 10 only)
rewrite `define ` lines with `replaceParams`. -/
def filterLine (llvmVersion : Nat) (line : List Char) : Option (List Char) :=
  let l := trimRight (dropComment line)
  if l = [] then none
  else if hasPfx sourceFilenameTag l then none
  else if decide (llvmVersion < 10) && hasPfx attributesTag l then none
  else if decide (llvmVersion < 10) && hasPfx defineTag l then some (replaceParams l)
  else some l

/-- Go `filterIrrelevantIRLines`: keep only the relevant lines. -/
def filterIrrelevantIRLines (llvmVersion : Nat) (lines : List (List Char)) :
    List (List Char) :=
  lines.filterMap (filterLine llvmVersion)

/-- The literal part of `alignRegexp`, the string `, align ` (with a trailing
space) that must precede the digit run at the end of the line. -/
def alignTag : List Char := ", align ".data

/-- Go `alignRegexp.MatchString(line)` for the regexp `, align [0-9]+$`: the
line ends in a nonempty digit run immediately preceded by `, align `.
(The digit run of any match is forced to be the maximal trailing digit run,
because `, align ` ends in a space.) -/
def alignMatch (l : List Char) : Bool :=
  decide (l.reverse.takeWhile Char.isDigit ≠ []) &&
    hasPfx alignTag.reverse (l.reverse.dropWhile Char.isDigit)

/-- Go `alignRegexp.ReplaceAllString(line, "")`: remove the trailing
`, align N` annotation when present, otherwise return the line unchanged. -/
def alignStrip (l : List Char) : List Char :=
  if alignMatch l then
    ((l.reverse.dropWhile Char.isDigit).drop alignTag.length).reverse
  else l

/-- The per-line comparison inside the `fuzzyEqualIR` loop: when exactly one
of the two lines matches `alignRegexp` the annotation is removed from both
sides before comparing, otherwise the lines are compared as they are. -/
def lineEq (l1 l2 : List Char) : Bool :=
  if alignMatch l1 == alignMatch l2 then decide (l1 = l2)
  else decide (alignStrip l1 = alignStrip l2)

/-- The indexed loop of `fuzzyEqualIR`: compare corresponding lines with
`lineEq`, failing on any mismatch. -/
def fuzzyLinesEq : List (List Char) → List (List Char) → Bool
  | [], [] => true
  | l1 :: r1, l2 :: r2 => lineEq l1 l2 && fuzzyLinesEq r1 r2
  | _, _ => false

/-- Go `fuzzyEqualIR(s1, s2)`: filter both sides with
`filterIrrelevantIRLines`, require equal line counts, then compare line by
line. -/
def fuzzyEqualIR (llvmVersion : Nat) (s1 s2 : String) : Bool :=
  decide ((filterIrrelevantIRLines llvmVersion (splitLines s1.data)).length
      = (filterIrrelevantIRLines llvmVersion (splitLines s2.data)).length) &&
    fuzzyLinesEq (filterIrrelevantIRLines llvmVersion (splitLines s1.data))
      (filterIrrelevantIRLines llvmVersion (splitLines s2.data))

/-- The claim's description of the per-line filter, taken literally: drop
comment text (everything from the first semicolon to the end of the line),
drop blank lines, and drop every line beginning with `source_filename = ` —
with no trimming of trailing whitespace. -/
def claimFilterLine (line : List Char) : Option (List Char) :=
  let l := dropComment line
  if l = [] then none
  else if hasPfx sourceFilenameTag l then none
  else some l

/-- The fuzzy comparison the claim describes: apply `claimFilterLine` to both
sides, require equal length, and compare corresponding lines up to the
alignment-annotation rule. -/
def claimFuzzyEq (s1 s2 : String) : Bool :=
  decide (((splitLines s1.data).filterMap claimFilterLine).length
      = ((splitLines s2.data).filterMap claimFilterLine).length) &&
    fuzzyLinesEq ((splitLines s1.data).filterMap claimFilterLine)
      ((splitLines s2.data).filterMap claimFilterLine)

/-- The amended per-line filter: as `claimFilterLine`, but after dropping the
comment text the trailing spaces and carriage returns are also removed, and
blankness is judged on the trimmed line.  This is the filter the code
actually applies (for the LLVM versions, major 10 and up, this repository
builds against). -/
def amendedFilterLine (line : List Char) : Option (List Char) :=
  let l := trimRight (dropComment line)
  if l = [] then none
  else if hasPfx sourceFilenameTag l then none
  else some l

/-- The amended fuzzy comparison: both sides filtered with
`amendedFilterLine`, equal length required, corresponding lines compared up
to the alignment-annotation rule. -/
def amendedFuzzyEq (s1 s2 : String) : Bool :=
  decide (((splitLines s1.data).filterMap amendedFilterLine).length
      = ((splitLines s2.data).filterMap amendedFilterLine).length) &&
    fuzzyLinesEq ((splitLines s1.data).filterMap amendedFilterLine)
      ((splitLines s2.data).filterMap amendedFilterLine)

/-- A line ends with a size/alignment annotation of the form `, align N`
with `N` a nonempty decimal digit run, stated as the claims state it. -/
def AlignAnnotated (l : List Char) : Prop :=
  ∃ pre ds, ds ≠ [] ∧ (∀ c ∈ ds, c.isDigit = true) ∧ l = pre ++ alignTag ++ ds

/-- Outcome of one golden-test run, mirroring the control flow of
`testTransform`: the two `t.Fatalf` sites for unreadable fixture files,
`t.Fail` for a fuzzy-comparison mismatch, and success. -/
inductive TestOutcome where
  | fatalMissingInput
  | fatalMissingOutput
  | failed
  | passed
deriving DecidableEq, Repr

/-- Result of a golden-test run: the outcome plus the file system after the
run (which the update mode mutates). -/
structure TestResult where
  outcome : TestOutcome
  fs : String → Option String

/-- Write one file into a file-system map. -/
def writeFS (fs : String → Option String) (name contents : String) :
    String → Option String :=
  fun k => if k = name then some contents else fs k

/-- The pattern searched by `strings.Index(actual, "\ntarget datalayout = ")`. -/
def datalayoutTag : List Char := "\ntarget datalayout = ".data

/-- First index at which `pat` occurs in the list, Go `strings.Index`
returning `none` for -1. -/
def findSub (pat : List Char) : List Char → Option Nat
  | [] => if hasPfx pat [] then some 0 else none
  | c :: rest =>
    if hasPfx pat (c :: rest) then some 0
    else (findSub pat rest).map (fun i => i + 1)

/-- The slicing `actual[strings.Index(actual, "\ntarget datalayout = ")+1:]`:
when the pattern occurs at index `i`, keep everything from `i + 1`; when it
does not occur, `strings.Index` returns -1 and the slice `[0:]` keeps the
whole string. -/
def sliceActual (s : List Char) : List Char :=
  match findSub datalayoutTag s with
  | some i => s.drop (i + 1)
  | none => s

/-- Go `testTransform`: read `pathPrefix + ".ll"`, apply the transform (the
LLVM parse / transform / print steps are abstracted into `tr`), slice off the
module header, then either regenerate `pathPrefix + ".out.ll"` (update mode)
or read it and fuzzy-compare. -/
def testTransform (llvmVersion : Nat) (update : Bool) (pathPrefix : String)
    (tr : String → String) (fs : String → Option String) : TestResult :=
  match fs (pathPrefix ++ ".ll") with
  | none => ⟨.fatalMissingInput, fs⟩
  | some input =>
    let actual : String := ⟨sliceActual (tr input).data⟩
    if update then ⟨.passed, writeFS fs (pathPrefix ++ ".out.ll") actual⟩
    else
      match fs (pathPrefix ++ ".out.ll") with
      | none => ⟨.fatalMissingOutput, fs⟩
      | some expected =>
        if fuzzyEqualIR llvmVersion expected actual then ⟨.passed, fs⟩
        else ⟨.failed, fs⟩

/-- A concrete file system holding the fixture pair `t.in` / `t.out` the
claim names, and nothing else. -/
def fsInOut : String → Option String := fun k =>
  if k = "t.in" then some "a" else if k = "t.out" then some "a" else none

/-- A concrete file system holding the fixture pair `t.ll` / `t.out.ll` the
code actually reads. -/
def fsLL : String → Option String := fun k =>
  if k = "t.ll" then some "a" else if k = "t.out.ll" then some "a" else none

/-- As `fsLL` but with an extra unrelated file, to exhibit that only the two
fixture files influence a comparison run. -/
def fsLLExtra : String → Option String := fun k =>
  if k = "t.ll" then some "a"
  else if k = "t.out.ll" then some "a"
  else if k = "unrelated.txt" then some "z" else none

/-- Errors a read can end with: the `io.EOF` sentinel or any other error
(identified by a code). -/
inductive ReadErr where
  | eof
  | other (code : Nat)
deriving DecidableEq, Repr

/-- The error conversion at the end of `ReadFile`: `io.EOF` becomes `nil`,
any other error is returned as is. -/
def errToOption : ReadErr → Option ReadErr
  | .eof => none
  | .other c => some (.other c)

/-- The read loop of `os.ReadFile`.  The file is modelled as the byte list
`remaining` it still yields followed by the terminating error `e` (a normal
end of file yields `io.EOF`); each `f.Read(data[len(data):cap(data)])` fills
as much of the spare capacity as the file has bytes.  The capacity-growth
step `append(data[:cap(data)], 0)` is modelled as growing to one byte more
than the current length — Go's growth factor is larger, but any growth of at
least one byte yields the same returned data and error. -/
def growCap (cap len : Nat) : Nat :=
  if cap ≤ len then len + 1 else cap

def readLoop (remaining data : List Nat) (cap : Nat) (e : ReadErr) :
    List Nat × Option ReadErr :=
  match remaining with
  | [] => (data, errToOption e)
  | r :: rest =>
    readLoop ((r :: rest).drop (growCap cap data.length - data.length))
      (data ++ (r :: rest).take (growCap cap data.length - data.length))
      (growCap cap data.length) e
termination_by remaining.length
decreasing_by
  have hg : data.length < growCap cap data.length := by
    unfold growCap
    split
    · omega
    · omega
  simp
  omega

/-- Go `os.ReadFile(name)`: open the file (an open failure is returned at
once), size the initial buffer from `Stat` (a stat failure, or a size not
representable in `int`, leaves the size at 0; one extra byte is added for
the final read at EOF, and at least 512 bytes are used), then read until an
error; `io.EOF` is converted to `nil`. -/
def ReadFile (openErr : Option Nat) (statSize : Option Nat)
    (contents : List Nat) (e : ReadErr) : List Nat × Option ReadErr :=
  match openErr with
  | some code => ([], some (.other code))
  | none =>
    let size0 := match statSize with | some n => n | none => 0
    let size1 := size0 + 1
    let size2 := if size1 < 512 then 512 else size1
    readLoop contents [] size2 e

/-- Modelled from the spec: one entry of an Interface Method Table, a pair of
a concrete-type identity and the implementation function for that type. -/
structure Impl where
  typeId : Nat
  fn : Nat
deriving DecidableEq, Repr

/-- Modelled from the spec: the instruction forms the interface-lowering and
dead-code-elimination passes distinguish — direct calls, dynamic interface
invocations, the two lowered dispatch forms (linear type-id comparison chain
and dispatch-table lookup), the nil-interface trap, and anything else. -/
inductive Instr where
  | directCall (callee : Nat)
  | invokeMethod (method : Nat)
  | typeidChain (method : Nat) (impls : List Impl)
  | tableCall (method : Nat)
  | trap
  | other (code : Nat)
deriving DecidableEq, Repr

/-- Modelled from the spec: a function of the IR module, a name plus a body
of instructions. -/
structure Func where
  name : Nat
  body : List Instr
deriving DecidableEq, Repr

/-- Modelled from the spec: a dispatch table emitted by Interface Lowering,
indexed by type id, for one method. -/
structure DispatchTable where
  method : Nat
  impls : List Impl
deriving DecidableEq, Repr

/-- Modelled from the spec: a whole-program IR module — its functions, the
whole-program map from method identity to known implementations, and the
dispatch tables present (empty before Interface Lowering runs). -/
structure Module where
  funcs : List Func
  methodImpls : List (Nat × Impl)
  tables : List DispatchTable
deriving DecidableEq, Repr

/-- Modelled from the spec: the implementation set collected for one method
by the whole-program analysis step of Interface Lowering. -/
def implsOf (m : Module) (meth : Nat) : List Impl :=
  (m.methodImpls.filter (fun p => p.1 == meth)).map (fun p => p.2)

/-- Modelled from the spec: rewrite of one call site by Interface Lowering,
decided by implementation-set cardinality — no implementation (a provably
nil interface value) becomes a trap, exactly one becomes a direct call, a
small set (at most the threshold) becomes a type-id comparison chain, a
larger set becomes a dispatch-table lookup. -/
def rewriteInstr (threshold : Nat) (m : Module) : Instr → Instr
  | .invokeMethod meth =>
    match implsOf m meth with
    | [] => .trap
    | [i] => .directCall i.fn
    | is => if is.length ≤ threshold then .typeidChain meth is else .tableCall meth
  | i => i

/-- Modelled from the spec: the methods with at least one dynamic call site
in the module, in deterministic (declaration-order) traversal. -/
def methodsUsed (m : Module) : List Nat :=
  (m.funcs.flatMap (fun f => f.body.filterMap (fun i =>
    match i with
    | .invokeMethod meth => some meth
    | _ => none))).eraseDups

/-- Modelled from the spec: a dispatch table is emitted for a method exactly
when its call sites are lowered to table lookups — at least two
implementations and more of them than the comparison-chain threshold. -/
def needsTable (threshold : Nat) (m : Module) (meth : Nat) : Bool :=
  decide (2 ≤ (implsOf m meth).length) && decide (threshold < (implsOf m meth).length)

/-- Modelled from the spec: the Interface Lowering pass — every call site is
rewritten by cardinality, and one dispatch table is emitted per method that
is used and lowered to table dispatch. -/
def lowerInterfaces (threshold : Nat) (m : Module) : Module :=
  { funcs := m.funcs.map (fun f =>
      { f with body := f.body.map (rewriteInstr threshold m) }),
    methodImpls := m.methodImpls,
    tables := ((methodsUsed m).filter (needsTable threshold m)).map
      (fun meth => ⟨meth, implsOf m meth⟩) }

/-- A pre-lowering module: no lowered dispatch construct (comparison chain or
table lookup) occurs in any body yet. -/
def preLowered (m : Module) : Bool :=
  m.funcs.all (fun f => f.body.all (fun i =>
    match i with
    | .typeidChain _ _ => false
    | .tableCall _ => false
    | _ => true))

/-- Modelled from the spec: the functions an instruction references directly
in the call graph — the callee of a direct call and the implementations
listed in a comparison chain.  Table dispatch is accounted for through the
dispatch-table roots instead. -/
def instrTargets : Instr → List Nat
  | .directCall c => [c]
  | .typeidChain _ is => is.map (fun i => i.fn)
  | _ => []

/-- Modelled from the spec: the direct successors of a named function in the
call graph of the module. -/
def funcSuccs (m : Module) (f : Nat) : List Nat :=
  ((m.funcs.filter (fun fn => fn.name == f)).flatMap (fun fn => fn.body)).flatMap
    instrTargets

/-- Modelled from the spec: the surviving Interface Method Table entries —
every implementation function referenced from a dispatch table. -/
def tableRoots (m : Module) : List Nat :=
  m.tables.flatMap (fun dt => dt.impls.map (fun i => i.fn))

/-- Modelled from the spec: the root set of Dead-Code Elimination — the
declared entry points plus every surviving Interface Method Table entry. -/
def dceRoots (m : Module) (entries : List Nat) : List Nat :=
  entries ++ tableRoots m

/-- Transitive reachability over the call graph from a root set, as the spec
states it: every root is reachable, and every direct successor of a
reachable function is reachable. -/
inductive Reaches (m : Module) (roots : List Nat) : Nat → Prop where
  | root : ∀ r, r ∈ roots → Reaches m roots r
  | step : ∀ f g, Reaches m roots f → g ∈ funcSuccs m f → Reaches m roots g

/-- The successor set of one function, as a finite set. -/
def succsF (m : Module) (f : Nat) : Finset Nat :=
  (funcSuccs m f).toFinset

/-- One round of the reachability closure: add every direct successor of the
current set. -/
def stepF (m : Module) (s : Finset Nat) : Finset Nat :=
  s ∪ s.biUnion (succsF m)

/-- Iterated closure rounds. -/
def iterF (m : Module) : Nat → Finset Nat → Finset Nat
  | 0, s => s
  | n + 1, s => stepF m (iterF m n s)

/-- A finite universe containing the roots and every call-graph target of the
module; the closure never leaves it. -/
def univF (m : Module) (roots : List Nat) : Finset Nat :=
  roots.toFinset ∪ (m.funcs.flatMap (fun fn => fn.body.flatMap instrTargets)).toFinset

/-- The computed reachable set: enough closure rounds to saturate. -/
def reachSet (m : Module) (roots : List Nat) : Finset Nat :=
  iterF m (univF m roots).card roots.toFinset

/-- Modelled from the spec: Whole-Program Dead-Code Elimination — compute
transitive reachability from the declared entry points and every surviving
Interface Method Table entry, and drop every function unreached. -/
def dce (entries : List Nat) (m : Module) : Module :=
  { m with funcs := m.funcs.filter (fun f =>
      decide (f.name ∈ reachSet m (dceRoots m entries))) }

/-- Modelled from the spec: the full lowering pipeline.  Interface Lowering
and Dead-Code Elimination are the passes modelled here; Function-Value
Lowering, Concurrency Lowering and GC Root Instrumentation are taken as
given per-module transforms (the spec states every pass is a pure, in-place
module transform). -/
def runPipeline (funcValueLowering concLowering gcRootInstr : Module → Module)
    (threshold : Nat) (entries : List Nat) (m : Module) : Module :=
  dce entries (gcRootInstr (concLowering (funcValueLowering
    (lowerInterfaces threshold m))))

/-- Modelled from the spec: the byte-exact textual form of the output module
handed to the code-generation collaborator. -/
def printIR (m : Module) : String :=
  reprStr m

/-- A concrete interface-method implementation used in witnesses. -/
def demoImpl : Impl := ⟨7, 42⟩

/-- A concrete pre-lowering module: one function whose body dynamically
invokes method 5, and method 5 has exactly one whole-program
implementation. -/
def demoModule : Module :=
  { funcs := [⟨1, [Instr.invokeMethod 5, Instr.other 0]⟩],
    methodImpls := [(5, demoImpl)],
    tables := [] }

/-- A concrete module for the dead-code-elimination witness: function 1
calls function 2; function 3 is referenced by nothing. -/
def demoDceModule : Module :=
  { funcs := [⟨1, [Instr.directCall 2]⟩, ⟨2, [Instr.other 0]⟩,
      ⟨3, [Instr.other 1]⟩],
    methodImpls := [],
    tables := [] }

theorem hasPfx_eq_true_iff (p l : List Char) :
    hasPfx p l = true ↔ ∃ t, l = p ++ t := by
  induction p generalizing l with
  | nil => simp [hasPfx]
  | cons a as ih =>
    cases l with
    | nil => simp [hasPfx]
    | cons b bs =>
      simp only [hasPfx, Bool.and_eq_true, beq_iff_eq, ih, List.cons_append,
        List.cons.injEq]
      constructor
      · rintro ⟨h1, t, h2⟩
        exact ⟨t, h1.symm, h2⟩
      · rintro ⟨t, h1, h2⟩
        exact ⟨h1.symm, t, h2⟩

theorem hasPfx_append (p t : List Char) : hasPfx p (p ++ t) = true :=
  (hasPfx_eq_true_iff p (p ++ t)).mpr ⟨t, rfl⟩

theorem takeWhile_append_all {p : Char → Bool} {l1 : List Char} {c : Char}
    (l2 : List Char) (h1 : ∀ a ∈ l1, p a = true) (h2 : p c = false) :
    (l1 ++ c :: l2).takeWhile p = l1 := by
  induction l1 with
  | nil => simp [List.takeWhile_cons, h2]
  | cons a as ih =>
    have ha : p a = true := h1 a (List.mem_cons_self a as)
    simp only [List.cons_append, List.takeWhile_cons, ha, if_true]
    rw [ih (fun x hx => h1 x (List.mem_cons_of_mem a hx))]

theorem dropWhile_append_all {p : Char → Bool} {l1 : List Char} {c : Char}
    (l2 : List Char) (h1 : ∀ a ∈ l1, p a = true) (h2 : p c = false) :
    (l1 ++ c :: l2).dropWhile p = c :: l2 := by
  induction l1 with
  | nil => simp [List.dropWhile_cons, h2]
  | cons a as ih =>
    have ha : p a = true := h1 a (List.mem_cons_self a as)
    simp only [List.cons_append, List.dropWhile_cons, ha, if_true]
    exact ih (fun x hx => h1 x (List.mem_cons_of_mem a hx))

theorem alignTag_eq : alignTag = [',', ' ', 'a', 'l', 'i', 'g', 'n', ' '] := by
  decide

theorem alignMatch_of_annot {pre ds : List Char} (h1 : ds ≠ [])
    (h2 : ∀ c ∈ ds, c.isDigit = true) :
    alignMatch (pre ++ alignTag ++ ds) = true := by
  have hds : ∀ a ∈ ds.reverse, a.isDigit = true := by
    intro a ha
    exact h2 a (List.mem_reverse.mp ha)
  have hsp : (' ' : Char).isDigit = false := by decide
  have hrev : (pre ++ alignTag ++ ds).reverse
      = ds.reverse ++ ' ' :: (['n', 'g', 'i', 'l', 'a', ' ', ','] ++ pre.reverse) := by
    simp [alignTag_eq, List.reverse_append]
  unfold alignMatch
  rw [hrev, takeWhile_append_all _ hds hsp, dropWhile_append_all _ hds hsp]
  have htag : ' ' :: (['n', 'g', 'i', 'l', 'a', ' ', ','] ++ pre.reverse)
      = alignTag.reverse ++ pre.reverse := by
    simp [alignTag_eq]
  rw [htag]
  simp [hasPfx_append, h1]

theorem alignStrip_of_annot {pre ds : List Char} (h1 : ds ≠ [])
    (h2 : ∀ c ∈ ds, c.isDigit = true) :
    alignStrip (pre ++ alignTag ++ ds) = pre := by
  have hds : ∀ a ∈ ds.reverse, a.isDigit = true := by
    intro a ha
    exact h2 a (List.mem_reverse.mp ha)
  have hsp : (' ' : Char).isDigit = false := by decide
  have hrev : (pre ++ alignTag ++ ds).reverse
      = ds.reverse ++ ' ' :: (['n', 'g', 'i', 'l', 'a', ' ', ','] ++ pre.reverse) := by
    simp [alignTag_eq, List.reverse_append]
  unfold alignStrip
  rw [if_pos (alignMatch_of_annot h1 h2), hrev,
    dropWhile_append_all _ hds hsp]
  have htag : ' ' :: (['n', 'g', 'i', 'l', 'a', ' ', ','] ++ pre.reverse)
      = alignTag.reverse ++ pre.reverse := by
    simp [alignTag_eq]
  rw [htag]
  have hlen : alignTag.length = alignTag.reverse.length := by simp
  rw [hlen, List.drop_left, List.reverse_reverse]

theorem alignMatch_iff_annotated (l : List Char) :
    alignMatch l = true ↔ AlignAnnotated l := by
  constructor
  · intro h
    unfold alignMatch at h
    simp only [Bool.and_eq_true, decide_eq_true_eq] at h
    obtain ⟨hne, hpfx⟩ := h
    obtain ⟨t, ht⟩ := (hasPfx_eq_true_iff _ _).mp hpfx
    refine ⟨t.reverse, (l.reverse.takeWhile Char.isDigit).reverse, ?_, ?_, ?_⟩
    · simpa using hne
    · intro c hc
      exact List.mem_takeWhile_imp (List.mem_reverse.mp hc)
    · have hl : l.reverse = l.reverse.takeWhile Char.isDigit
          ++ (alignTag.reverse ++ t) := by
        rw [← ht]
        exact (List.takeWhile_append_dropWhile Char.isDigit l.reverse).symm
      calc l = l.reverse.reverse := by rw [List.reverse_reverse]
        _ = (l.reverse.takeWhile Char.isDigit ++ (alignTag.reverse ++ t)).reverse := by
              rw [← hl]
        _ = t.reverse ++ alignTag ++ (l.reverse.takeWhile Char.isDigit).reverse := by
              simp [List.reverse_append, List.append_assoc]
  · rintro ⟨pre, ds, h1, h2, rfl⟩
    exact alignMatch_of_annot h1 h2

theorem lineEq_refl (l : List Char) : lineEq l l = true := by
  simp [lineEq]

theorem lineEq_symm (l1 l2 : List Char) : lineEq l1 l2 = lineEq l2 l1 := by
  unfold lineEq
  by_cases h : alignMatch l1 = alignMatch l2
  · rw [h]
    simp only [beq_self_eq_true, if_true]
    exact decide_eq_decide.mpr eq_comm
  · have h2 : (alignMatch l1 == alignMatch l2) = false := by
      simp [h]
    have h3 : (alignMatch l2 == alignMatch l1) = false := by
      simp [Ne.symm h]
    rw [h2, h3]
    simp only [Bool.false_eq_true, if_false]
    exact decide_eq_decide.mpr eq_comm

theorem fuzzyLinesEq_refl (l : List (List Char)) : fuzzyLinesEq l l = true := by
  induction l with
  | nil => rfl
  | cons a as ih => simp [fuzzyLinesEq, lineEq_refl, ih]

theorem fuzzyLinesEq_symm (l1 l2 : List (List Char)) :
    fuzzyLinesEq l1 l2 = fuzzyLinesEq l2 l1 := by
  induction l1 generalizing l2 with
  | nil => cases l2 <;> rfl
  | cons a as ih =>
    cases l2 with
    | nil => rfl
    | cons b bs => simp [fuzzyLinesEq, lineEq_symm, ih]

/-- C8: the fuzzy comparison is reflexive and symmetric — for every IR string
`s`, `fuzzyEqualIR s s` is true, and for all IR strings `s1` and `s2`,
`fuzzyEqualIR s1 s2` equals `fuzzyEqualIR s2 s1` (for every LLVM version). -/
theorem fuzzyEqualIR_refl_symm :
    (∀ llvmVersion : Nat, ∀ s : String, fuzzyEqualIR llvmVersion s s = true) ∧
    (∀ llvmVersion : Nat, ∀ s1 s2 : String,
      fuzzyEqualIR llvmVersion s1 s2 = fuzzyEqualIR llvmVersion s2 s1) := by
  constructor
  · intro v s
    simp [fuzzyEqualIR, fuzzyLinesEq_refl]
  · intro v s1 s2
    unfold fuzzyEqualIR
    rw [fuzzyLinesEq_symm]
    congr 1
    exact decide_eq_decide.mpr eq_comm

/-- C2: in the per-line comparison of `fuzzyEqualIR`, when exactly one of the
two lines ends with a `, align N` annotation (`N` a decimal number), the
annotation is stripped from both lines and the stripped lines are compared;
consequently a line differing from its counterpart only by such a trailing
annotation compares equal. -/
theorem lineEq_align_rule :
    (∀ l1 l2 : List Char, ¬ (AlignAnnotated l1 ↔ AlignAnnotated l2) →
      lineEq l1 l2 = decide (alignStrip l1 = alignStrip l2)) ∧
    (∀ pre ds : List Char, ds ≠ [] → (∀ c ∈ ds, c.isDigit = true) →
      ¬ AlignAnnotated pre →
      lineEq (pre ++ alignTag ++ ds) pre = true ∧
      lineEq pre (pre ++ alignTag ++ ds) = true) := by
  have key : ∀ l1 l2 : List Char, ¬ (AlignAnnotated l1 ↔ AlignAnnotated l2) →
      lineEq l1 l2 = decide (alignStrip l1 = alignStrip l2) := by
    intro l1 l2 h
    have hne : alignMatch l1 ≠ alignMatch l2 := by
      intro he
      exact h (by rw [← alignMatch_iff_annotated, ← alignMatch_iff_annotated, he])
    unfold lineEq
    rw [if_neg (by simpa using hne)]
  refine ⟨key, ?_⟩
  intro pre ds h1 h2 h3
  have hm1 : alignMatch (pre ++ alignTag ++ ds) = true := alignMatch_of_annot h1 h2
  have ha1 : AlignAnnotated (pre ++ alignTag ++ ds) :=
    (alignMatch_iff_annotated _).mp hm1
  have hm2 : alignMatch pre = false := by
    rw [← Bool.not_eq_true, alignMatch_iff_annotated]
    exact h3
  have hs : alignStrip (pre ++ alignTag ++ ds) = alignStrip pre := by
    rw [alignStrip_of_annot h1 h2]
    unfold alignStrip
    rw [if_neg (by simp [hm2])]
  have hxor1 : ¬ (AlignAnnotated (pre ++ alignTag ++ ds) ↔ AlignAnnotated pre) :=
    fun hiff => h3 (hiff.mp ha1)
  have hxor2 : ¬ (AlignAnnotated pre ↔ AlignAnnotated (pre ++ alignTag ++ ds)) :=
    fun hiff => h3 (hiff.mpr ha1)
  constructor
  · rw [key _ _ hxor1, hs]
    simp
  · rw [key _ _ hxor2, hs]
    simp

/-- Witness for C2 at a concrete pair of lines: `call void @f, align 4`
compares equal to `call void @f`. -/
theorem lineEq_align_rule_witness :
    lineEq ("call void @f".data ++ alignTag ++ ['4']) "call void @f".data = true ∧
    lineEq "call void @f".data ("call void @f".data ++ alignTag ++ ['4']) = true :=
  lineEq_align_rule.2 "call void @f".data ['4'] (by decide) (by decide)
    (by rw [← alignMatch_iff_annotated]; decide)

/-- C9: when both corresponding lines end with a `, align N` annotation, the
annotations are not stripped and the raw lines are compared; two lines
identical except for different alignment digit runs therefore compare
unequal. -/
theorem lineEq_both_annotated :
    (∀ l1 l2 : List Char, AlignAnnotated l1 → AlignAnnotated l2 →
      lineEq l1 l2 = decide (l1 = l2)) ∧
    (∀ pre ds1 ds2 : List Char, ds1 ≠ [] → (∀ c ∈ ds1, c.isDigit = true) →
      ds2 ≠ [] → (∀ c ∈ ds2, c.isDigit = true) → ds1 ≠ ds2 →
      lineEq (pre ++ alignTag ++ ds1) (pre ++ alignTag ++ ds2) = false) := by
  have key : ∀ l1 l2 : List Char, AlignAnnotated l1 → AlignAnnotated l2 →
      lineEq l1 l2 = decide (l1 = l2) := by
    intro l1 l2 h1 h2
    rw [← alignMatch_iff_annotated] at h1 h2
    unfold lineEq
    rw [h1, h2]
    simp
  refine ⟨key, ?_⟩
  intro pre ds1 ds2 h1 h2 h3 h4 h5
  rw [key _ _ ⟨pre, ds1, h1, h2, rfl⟩ ⟨pre, ds2, h3, h4, rfl⟩]
  simp only [decide_eq_false_iff_not]
  intro he
  have he2 : alignTag ++ ds1 = alignTag ++ ds2 := by
    rw [List.append_assoc, List.append_assoc] at he
    exact List.append_cancel_left he
  exact h5 (List.append_cancel_left he2)

/-- Witness for C9 at a concrete pair of lines: `%p = alloca i32, align 8`
and `%p = alloca i32, align 4` compare unequal. -/
theorem lineEq_both_annotated_witness :
    lineEq ("%p = alloca i32".data ++ alignTag ++ ['8'])
      ("%p = alloca i32".data ++ alignTag ++ ['4']) = false :=
  lineEq_both_annotated.2 "%p = alloca i32".data ['8'] ['4'] (by decide)
    (by decide) (by decide) (by decide) (by decide)

theorem filterLine_ge10 {llvmVersion : Nat} (hv : 10 ≤ llvmVersion)
    (line : List Char) : filterLine llvmVersion line = amendedFilterLine line := by
  unfold filterLine amendedFilterLine
  have h10 : decide (llvmVersion < 10) = false := by
    simp
    omega
  simp only [h10, Bool.false_and, Bool.false_eq_true, if_false]

/-- C1 counterexample: the claim's characterization of `fuzzyEqualIR` — the
same filter on both sides, where the filter only drops comment text, blank
lines and `source_filename = ` lines — fails on the concrete pair
`"a "` / `"a"`: the code compares them equal (it also trims trailing
whitespace) while the claim's filter keeps the trailing space and so
predicts inequality. -/
theorem fuzzyEqualIR_claim_counterexample :
    fuzzyEqualIR 10 "a " "a" = true ∧ claimFuzzyEq "a " "a" = false := by
  constructor
  · decide
  · decide

/-- C1 (amended): for the LLVM major versions this repository builds against
(10 and up), `fuzzyEqualIR s1 s2` returns true exactly when, after applying
the same filter to both sides — dropping comment text (everything from the
first `;` to end of line), trimming trailing spaces and carriage returns,
dropping lines that are then blank, and dropping every line beginning with
`source_filename = ` — the two resulting line sequences have equal length
and corresponding lines are equal up to the alignment-annotation rule. -/
theorem fuzzyEqualIR_eq_amendedFuzzyEq {llvmVersion : Nat}
    (hv : 10 ≤ llvmVersion) (s1 s2 : String) :
    fuzzyEqualIR llvmVersion s1 s2 = amendedFuzzyEq s1 s2 := by
  have hf : filterLine llvmVersion = amendedFilterLine :=
    funext (filterLine_ge10 hv)
  unfold fuzzyEqualIR amendedFuzzyEq filterIrrelevantIRLines
  rw [hf]

/-- Witness for C1 at the claim's own example: `add i32 1, 2 ; comment`
compares equal to `add i32 1, 2`, and the amended characterization gives the
same verdict. -/
theorem fuzzyEqualIR_eq_amendedFuzzyEq_witness :
    fuzzyEqualIR 10 "add i32 1, 2 ; comment" "add i32 1, 2"
      = amendedFuzzyEq "add i32 1, 2 ; comment" "add i32 1, 2" ∧
    fuzzyEqualIR 10 "add i32 1, 2 ; comment" "add i32 1, 2" = true :=
  ⟨fuzzyEqualIR_eq_amendedFuzzyEq (by decide) "add i32 1, 2 ; comment"
    "add i32 1, 2", by decide⟩

/-- C3 counterexample: a run pointed at fixture base name `t`, with a file
system holding exactly the pair `t.in` / `t.out` (with identical contents),
aborts because the input fixture it actually looks for, `t.ll`, does not
exist — so the harness does not read `<name>.in` / `<name>.out`. -/
theorem testTransform_in_out_counterexample :
    (testTransform 10 false "t" id fsInOut).outcome
      = TestOutcome.fatalMissingInput ∧
    (testTransform 10 false "t" id fsLL).outcome = TestOutcome.passed := by
  constructor
  · decide
  · decide

theorem testTransform_eval_missing_input {v : Nat} {u : Bool} {p : String}
    {tr : String → String} {fs : String → Option String}
    (hin : fs (p ++ ".ll") = none) :
    testTransform v u p tr fs = ⟨.fatalMissingInput, fs⟩ := by
  unfold testTransform
  rw [hin]

theorem testTransform_eval_update {v : Nat} {p : String}
    {tr : String → String} {fs : String → Option String} {input : String}
    (hin : fs (p ++ ".ll") = some input) :
    testTransform v true p tr fs
      = ⟨.passed, writeFS fs (p ++ ".out.ll")
          (String.mk (sliceActual (tr input).data))⟩ := by
  unfold testTransform
  rw [hin]
  rfl

theorem testTransform_eval_missing_output {v : Nat} {p : String}
    {tr : String → String} {fs : String → Option String} {input : String}
    (hin : fs (p ++ ".ll") = some input)
    (hout : fs (p ++ ".out.ll") = none) :
    testTransform v false p tr fs = ⟨.fatalMissingOutput, fs⟩ := by
  unfold testTransform
  rw [hin, hout]
  rfl

theorem testTransform_eval_compare {v : Nat} {p : String}
    {tr : String → String} {fs : String → Option String}
    {input expected : String}
    (hin : fs (p ++ ".ll") = some input)
    (hout : fs (p ++ ".out.ll") = some expected) :
    testTransform v false p tr fs
      = if fuzzyEqualIR v expected (String.mk (sliceActual (tr input).data))
        then ⟨.passed, fs⟩ else ⟨.failed, fs⟩ := by
  unfold testTransform
  rw [hin, hout]
  rfl

/-- C3 (amended): the golden test harness reads its input fixture from the
file named `<prefix>.ll` and its expected-output fixture from the file named
`<prefix>.out.ll` — a comparison run depends only on those two files, aborts
for a missing input exactly when `<prefix>.ll` is absent, and aborts for a
missing expected output exactly when `<prefix>.ll` is present but
`<prefix>.out.ll` is absent. -/
theorem testTransform_reads_ll_files :
    (∀ llvmVersion : Nat, ∀ p : String, ∀ tr : String → String,
      ∀ fs1 fs2 : String → Option String,
      fs1 (p ++ ".ll") = fs2 (p ++ ".ll") →
      fs1 (p ++ ".out.ll") = fs2 (p ++ ".out.ll") →
      (testTransform llvmVersion false p tr fs1).outcome
        = (testTransform llvmVersion false p tr fs2).outcome) ∧
    (∀ llvmVersion : Nat, ∀ p : String, ∀ tr : String → String,
      ∀ fs : String → Option String,
      ((testTransform llvmVersion false p tr fs).outcome
          = TestOutcome.fatalMissingInput ↔ fs (p ++ ".ll") = none) ∧
      ((testTransform llvmVersion false p tr fs).outcome
          = TestOutcome.fatalMissingOutput ↔
        (∃ i, fs (p ++ ".ll") = some i) ∧ fs (p ++ ".out.ll") = none)) := by
  constructor
  · intro v p tr fs1 fs2 h1 h2
    cases hx : fs2 (p ++ ".ll") with
    | none =>
      rw [testTransform_eval_missing_input (h1.trans hx),
        testTransform_eval_missing_input hx]
    | some input =>
      cases hy : fs2 (p ++ ".out.ll") with
      | none =>
        rw [testTransform_eval_missing_output (h1.trans hx) (h2.trans hy),
          testTransform_eval_missing_output hx hy]
      | some expected =>
        rw [testTransform_eval_compare (h1.trans hx) (h2.trans hy),
          testTransform_eval_compare hx hy]
        split
        · rfl
        · rfl
  · intro v p tr fs
    cases hin : fs (p ++ ".ll") with
    | none =>
      rw [testTransform_eval_missing_input hin]
      simp [hin]
    | some input =>
      cases hout : fs (p ++ ".out.ll") with
      | none =>
        rw [testTransform_eval_missing_output hin hout]
        simp [hin, hout]
      | some expected =>
        rw [testTransform_eval_compare hin hout]
        split
        · simp [hin, hout]
        · simp [hin, hout]

/-- Witness for C3 at concrete file systems: two file systems agreeing on
`t.ll` and `t.out.ll` but differing elsewhere give the same outcome. -/
theorem testTransform_reads_ll_files_witness :
    (testTransform 10 false "t" id fsLL).outcome
      = (testTransform 10 false "t" id fsLLExtra).outcome :=
  testTransform_reads_ll_files.1 10 "t" id fsLL fsLLExtra (by decide) (by decide)

/-- C4: with the update flag set, `testTransform` writes the actual
(post-transform, header-sliced) output to `<prefix>.out.ll` and succeeds
without any comparison; with the flag clear, it reads the expected fixture
and fails exactly when the fuzzy comparison of expected against actual
returns false. -/
theorem testTransform_update_mode :
    ∀ llvmVersion : Nat, ∀ p : String, ∀ tr : String → String,
      ∀ fs : String → Option String, ∀ input : String,
      fs (p ++ ".ll") = some input →
      ((testTransform llvmVersion true p tr fs).outcome = TestOutcome.passed ∧
        (testTransform llvmVersion true p tr fs).fs (p ++ ".out.ll")
          = some (String.mk (sliceActual (tr input).data))) ∧
      (∀ expected : String, fs (p ++ ".out.ll") = some expected →
        ((testTransform llvmVersion false p tr fs).outcome = TestOutcome.failed ↔
          fuzzyEqualIR llvmVersion expected
            (String.mk (sliceActual (tr input).data)) = false) ∧
        ((testTransform llvmVersion false p tr fs).outcome = TestOutcome.passed ↔
          fuzzyEqualIR llvmVersion expected
            (String.mk (sliceActual (tr input).data)) = true)) := by
  intro v p tr fs input hin
  constructor
  · rw [testTransform_eval_update hin]
    simp [writeFS]
  · intro expected hout
    rw [testTransform_eval_compare hin hout]
    split
    · rename_i hfz
      simp [hfz]
    · rename_i hfz
      simp only [Bool.not_eq_true] at hfz
      simp [hfz]

/-- Witness for C4 at a concrete file system: an update run on `fsLL` writes
the sliced actual output and passes. -/
theorem testTransform_update_mode_witness :
    (testTransform 10 true "t" id fsLL).outcome = TestOutcome.passed ∧
    (testTransform 10 true "t" id fsLL).fs ("t" ++ ".out.ll")
      = some (String.mk (sliceActual (id "a" : String).data)) :=
  (testTransform_update_mode 10 "t" id fsLL "a" (by decide)).1

theorem readLoop_spec (remaining data : List Nat) (cap : Nat) (e : ReadErr) :
    readLoop remaining data cap e = (data ++ remaining, errToOption e) := by
  induction remaining, data, cap, e using readLoop.induct with
  | case1 data cap e => simp [readLoop]
  | case2 data cap e r rest ih =>
    rw [readLoop, ih]
    simp

/-- C10: `os.ReadFile` converts the `io.EOF` sentinel ending a successful
whole-file read into a nil error — the whole contents are returned with no
error — while any other read error is returned together with the data read
up to that point (here the whole readable contents, since the error model
places the error after them). -/
theorem ReadFile_eof_to_nil :
    (∀ statSize : Option Nat, ∀ contents : List Nat,
      ReadFile none statSize contents ReadErr.eof = (contents, none)) ∧
    (∀ statSize : Option Nat, ∀ contents : List Nat, ∀ code : Nat,
      ReadFile none statSize contents (ReadErr.other code)
        = (contents, some (ReadErr.other code))) := by
  constructor
  · intro statSize contents
    unfold ReadFile
    rw [readLoop_spec]
    rfl
  · intro statSize contents code
    unfold ReadFile
    rw [readLoop_spec]
    rfl

theorem subset_stepF (m : Module) (s : Finset Nat) : s ⊆ stepF m s :=
  Finset.subset_union_left

theorem iterF_succ (m : Module) (n : Nat) (s : Finset Nat) :
    iterF m (n + 1) s = stepF m (iterF m n s) := rfl

theorem iterF_subset_succ (m : Module) (n : Nat) (s : Finset Nat) :
    iterF m n s ⊆ iterF m (n + 1) s :=
  subset_stepF m (iterF m n s)

theorem iterF_subset_of_le (m : Module) {n1 n2 : Nat} (h : n1 ≤ n2)
    (s : Finset Nat) : iterF m n1 s ⊆ iterF m n2 s := by
  induction n2 with
  | zero =>
    have hz : n1 = 0 := Nat.le_zero.mp h
    rw [hz]
  | succ n ih =>
    rcases Nat.lt_or_ge n1 (n + 1) with hlt | hge
    · exact (ih (Nat.lt_succ_iff.mp hlt)).trans (iterF_subset_succ m n s)
    · have he : n1 = n + 1 := Nat.le_antisymm h hge
      rw [he]

theorem self_subset_iterF (m : Module) (n : Nat) (s : Finset Nat) :
    s ⊆ iterF m n s :=
  iterF_subset_of_le m (Nat.zero_le n) s

theorem succs_subset_univ (m : Module) (roots : List Nat) (f : Nat) :
    succsF m f ⊆ univF m roots := by
  intro x hx
  unfold succsF funcSuccs at hx
  rw [List.mem_toFinset, List.mem_flatMap] at hx
  obtain ⟨ins, hins, hx⟩ := hx
  rw [List.mem_flatMap] at hins
  obtain ⟨fn, hfn, hins⟩ := hins
  rw [List.mem_filter] at hfn
  unfold univF
  apply Finset.mem_union_right
  rw [List.mem_toFinset, List.mem_flatMap]
  exact ⟨fn, hfn.1, List.mem_flatMap.mpr ⟨ins, hins, hx⟩⟩

theorem stepF_subset_univ (m : Module) (roots : List Nat) {s : Finset Nat}
    (hs : s ⊆ univF m roots) : stepF m s ⊆ univF m roots := by
  unfold stepF
  apply Finset.union_subset hs
  intro x hx
  rw [Finset.mem_biUnion] at hx
  obtain ⟨f, _, hx⟩ := hx
  exact succs_subset_univ m roots f hx

theorem iterF_subset_univ (m : Module) (roots : List Nat) (n : Nat) :
    iterF m n roots.toFinset ⊆ univF m roots := by
  induction n with
  | zero =>
    intro x hx
    exact Finset.mem_union_left _ hx
  | succ n ih => exact stepF_subset_univ m roots ih

theorem iterF_fix_forever (m : Module) (s : Finset Nat) (k : Nat)
    (h : stepF m (iterF m k s) = iterF m k s) :
    ∀ j, iterF m (k + j) s = iterF m k s := by
  intro j
  induction j with
  | zero => rfl
  | succ j ih =>
    have : iterF m (k + (j + 1)) s = stepF m (iterF m (k + j) s) := rfl
    rw [this, ih, h]

theorem iterF_card_grows (m : Module) (s : Finset Nat) :
    ∀ n, (∀ k, k < n → stepF m (iterF m k s) ≠ iterF m k s) →
      n ≤ (iterF m n s).card := by
  intro n
  induction n with
  | zero => simp
  | succ n ih =>
    intro h
    have h1 : n ≤ (iterF m n s).card :=
      ih (fun k hk => h k (Nat.lt_succ_of_lt hk))
    have h2 : iterF m n s ⊂ iterF m (n + 1) s := by
      rw [Finset.ssubset_iff_subset_ne]
      refine ⟨iterF_subset_succ m n s, ?_⟩
      intro he
      exact h n (Nat.lt_succ_self n) (by rw [← iterF_succ, ← he])
    have h3 := Finset.card_lt_card h2
    omega

theorem exists_iterF_fix (m : Module) (roots : List Nat) :
    ∃ k ≤ (univF m roots).card,
      stepF m (iterF m k roots.toFinset) = iterF m k roots.toFinset := by
  by_contra hc
  push_neg at hc
  have hall : ∀ k, k < (univF m roots).card + 1 →
      stepF m (iterF m k roots.toFinset) ≠ iterF m k roots.toFinset :=
    fun k hk => hc k (by omega)
  have h1 := iterF_card_grows m roots.toFinset ((univF m roots).card + 1) hall
  have h2 : (iterF m ((univF m roots).card + 1) roots.toFinset).card
      ≤ (univF m roots).card :=
    Finset.card_le_card (iterF_subset_univ m roots ((univF m roots).card + 1))
  omega

theorem stepF_reachSet (m : Module) (roots : List Nat) :
    stepF m (reachSet m roots) = reachSet m roots := by
  obtain ⟨k, hk, hfix⟩ := exists_iterF_fix m roots
  unfold reachSet
  have h1 : iterF m (univF m roots).card roots.toFinset
      = iterF m k roots.toFinset := by
    have h2 := iterF_fix_forever m roots.toFinset k hfix
      ((univF m roots).card - k)
    rw [Nat.add_sub_cancel' hk] at h2
    exact h2
  rw [h1, hfix]

theorem mem_iterF_reaches (m : Module) (roots : List Nat) :
    ∀ n x, x ∈ iterF m n roots.toFinset → Reaches m roots x := by
  intro n
  induction n with
  | zero =>
    intro x hx
    exact Reaches.root x (List.mem_toFinset.mp hx)
  | succ n ih =>
    intro x hx
    rw [iterF_succ] at hx
    unfold stepF at hx
    rw [Finset.mem_union] at hx
    rcases hx with hx | hx
    · exact ih x hx
    · rw [Finset.mem_biUnion] at hx
      obtain ⟨f, hf, hx⟩ := hx
      refine Reaches.step f x (ih f hf) ?_
      unfold succsF at hx
      exact List.mem_toFinset.mp hx

theorem reaches_mem_reachSet (m : Module) (roots : List Nat) {x : Nat}
    (h : Reaches m roots x) : x ∈ reachSet m roots := by
  induction h with
  | root r hr =>
    exact self_subset_iterF m _ _ (List.mem_toFinset.mpr hr)
  | step f g _ hsucc ih =>
    rw [← stepF_reachSet m roots]
    unfold stepF
    apply Finset.mem_union_right
    rw [Finset.mem_biUnion]
    refine ⟨f, ih, ?_⟩
    unfold succsF
    exact List.mem_toFinset.mpr hsucc

theorem mem_reachSet_iff (m : Module) (roots : List Nat) (x : Nat) :
    x ∈ reachSet m roots ↔ Reaches m roots x :=
  ⟨mem_iterF_reaches m roots _ x, reaches_mem_reachSet m roots⟩

theorem reaches_mono {m : Module} {roots1 roots2 : List Nat} {x : Nat}
    (hsub : ∀ r ∈ roots1, r ∈ roots2) (h : Reaches m roots1 x) :
    Reaches m roots2 x := by
  induction h with
  | root r hr => exact Reaches.root r (hsub r hr)
  | step f g _ hsucc ih => exact Reaches.step f g ih hsucc

/-- C7: Whole-Program Dead-Code Elimination never removes a function of the
module that is transitively reachable from a declared entry point, always
removes a function that is reachable neither from an entry point nor from a
surviving Interface Method Table entry, and in general keeps a function
exactly when it is reachable from the combined root set. -/
theorem dce_keeps_iff_reachable :
    ∀ entries : List Nat, ∀ m : Module, ∀ f : Func,
      (f ∈ m.funcs → Reaches m entries f.name → f ∈ (dce entries m).funcs) ∧
      (¬ Reaches m (dceRoots m entries) f.name → f ∉ (dce entries m).funcs) ∧
      (f ∈ (dce entries m).funcs ↔
        f ∈ m.funcs ∧ Reaches m (dceRoots m entries) f.name) := by
  intro entries m f
  have hiff : f ∈ (dce entries m).funcs ↔
      f ∈ m.funcs ∧ Reaches m (dceRoots m entries) f.name := by
    unfold dce
    rw [List.mem_filter]
    simp [mem_reachSet_iff]
  refine ⟨?_, ?_, hiff⟩
  · intro hmem hreach
    refine hiff.mpr ⟨hmem, reaches_mono ?_ hreach⟩
    intro r hr
    unfold dceRoots
    exact List.mem_append_left _ hr
  · intro hnot hmem
    exact hnot (hiff.mp hmem).2

/-- Witness for C7 at a concrete module: in `demoDceModule` with entry point
1, function 1 (reachable as an entry point) survives, while function 3
(referenced by nothing) is removed. -/
theorem dce_keeps_iff_reachable_witness :
    (⟨1, [Instr.directCall 2]⟩ : Func) ∈ (dce [1] demoDceModule).funcs ∧
    (⟨3, [Instr.other 1]⟩ : Func) ∉ (dce [1] demoDceModule).funcs :=
  ⟨(dce_keeps_iff_reachable [1] demoDceModule ⟨1, [Instr.directCall 2]⟩).1
      (by decide) (Reaches.root 1 (by decide)),
   (dce_keeps_iff_reachable [1] demoDceModule ⟨3, [Instr.other 1]⟩).2.1
      (fun hr => absurd
        ((mem_reachSet_iff demoDceModule (dceRoots demoDceModule [1]) 3).mpr hr)
        (by decide))⟩

/-- C6: for an interface method with exactly one whole-program
implementation, Interface Lowering rewrites its call sites into direct calls
to that implementation, emits no dispatch table for the method, and (on a
pre-lowering module) its output contains no dynamic invocation of the method
and no table dispatch for it. -/
theorem lowerInterfaces_monomorphize :
    ∀ threshold : Nat, ∀ m : Module, ∀ meth : Nat, ∀ i : Impl,
      implsOf m meth = [i] →
      rewriteInstr threshold m (Instr.invokeMethod meth)
          = Instr.directCall i.fn ∧
      (∀ dt ∈ (lowerInterfaces threshold m).tables, dt.method ≠ meth) ∧
      (preLowered m = true →
        ∀ f ∈ (lowerInterfaces threshold m).funcs, ∀ ins ∈ f.body,
          ins ≠ Instr.invokeMethod meth ∧ ins ≠ Instr.tableCall meth) := by
  intro threshold m meth i h
  have hrw : rewriteInstr threshold m (Instr.invokeMethod meth)
      = Instr.directCall i.fn := by
    simp only [rewriteInstr]
    rw [h]
  have key : ∀ ins0 : Instr, (∀ meth2, ins0 ≠ Instr.tableCall meth2) →
      rewriteInstr threshold m ins0 ≠ Instr.invokeMethod meth ∧
      rewriteInstr threshold m ins0 ≠ Instr.tableCall meth := by
    intro ins0 hnt
    cases ins0 with
    | invokeMethod meth2 =>
      by_cases hm : meth2 = meth
      · subst hm
        rw [hrw]
        simp
      · simp only [rewriteInstr]
        cases him : implsOf m meth2 with
        | nil => simp
        | cons a rest =>
          cases rest with
          | nil => simp
          | cons b rest2 =>
            by_cases hth : (a :: b :: rest2).length ≤ threshold
            · simp only [if_pos hth]
              simp [hth]
            · simp only [if_neg hth]
              simp [hth, hm]
    | directCall c => simp [rewriteInstr]
    | typeidChain m2 is => simp [rewriteInstr]
    | tableCall m2 => exact absurd rfl (hnt m2)
    | trap => simp [rewriteInstr]
    | other c => simp [rewriteInstr]
  refine ⟨hrw, ?_, ?_⟩
  · intro dt hdt
    unfold lowerInterfaces at hdt
    simp only [List.mem_map, List.mem_filter] at hdt
    obtain ⟨meth2, ⟨_, hneed⟩, rfl⟩ := hdt
    intro he
    simp only at he
    subst he
    unfold needsTable at hneed
    rw [h] at hneed
    simp at hneed
  · intro hpre f hf ins hins
    unfold lowerInterfaces at hf
    rw [List.mem_map] at hf
    obtain ⟨f0, hf0, rfl⟩ := hf
    simp only [List.mem_map] at hins
    obtain ⟨ins0, hins0, rfl⟩ := hins
    refine key ins0 ?_
    unfold preLowered at hpre
    rw [List.all_eq_true] at hpre
    have h1 := hpre f0 hf0
    rw [List.all_eq_true] at h1
    have h2 := h1 ins0 hins0
    intro meth2 he
    rw [he] at h2
    simp at h2

/-- Witness for C6 at a concrete module: in `demoModule`, method 5 has the
single implementation `demoImpl`, and its call site becomes a direct call to
function 42. -/
theorem lowerInterfaces_monomorphize_witness :
    rewriteInstr 2 demoModule (Instr.invokeMethod 5)
      = Instr.directCall demoImpl.fn :=
  (lowerInterfaces_monomorphize 2 demoModule 5 demoImpl (by decide)).1

/-- C5: the full lowering pipeline is deterministic — run on two copies of
the same input module (with the same externally chosen pass configuration),
it produces byte-identical printed output IR. -/
theorem pipeline_deterministic :
    ∀ funcValueLowering concLowering gcRootInstr : Module → Module,
      ∀ threshold : Nat, ∀ entries : List Nat, ∀ m1 m2 : Module,
      m1 = m2 →
      printIR (runPipeline funcValueLowering concLowering gcRootInstr
          threshold entries m1)
        = printIR (runPipeline funcValueLowering concLowering gcRootInstr
            threshold entries m2) := by
  intro fv cl gc threshold entries m1 m2 h
  rw [h]

/-- Witness for C5 at a concrete module. -/
theorem pipeline_deterministic_witness :
    printIR (runPipeline id id id 2 [1] demoDceModule)
      = printIR (runPipeline id id id 2 [1] demoDceModule) :=
  pipeline_deterministic id id id 2 [1] demoDceModule demoDceModule rfl

end TinyGo
